import Mathlib

/-!
# Verification of the ptrace trace-ingestion and event-indexing engine

Shallow embedding of the core of `src/skills/ptrace` (archive reader,
browser/test trace parsers, event index) and proofs of the specified
properties.

Modelling conventions:
* Python floats carrying millisecond timestamps are modelled as rationals;
  the `float("inf")` sentinel used for untimed error events is modelled as
  `⊤` in `WithTop ℚ`.
* Python `str` is Lean `String`; the tie-break comparison on `event_type`
  is Lean's lexicographic order on `String`, matching Python's string order.
* A JSON record is modelled as a structure holding the fields the code
  reads, with `entry.get(k, default)` becoming a plain field holding the
  default when the key is absent, and `Option` where the code distinguishes
  presence.  Fields holding arbitrary JSON that no code path inspects
  (`raw`, console `args`, body payloads) are not carried.
* Python `dict[str, V]` used as a keyed map is an association list with
  insert-or-replace semantics.
* A raised Python exception is an `Except.error`; a caught one is turned
  into the handler's result.
-/

/-- Timestamps in milliseconds: a rational, or `⊤` for `float("inf")`. -/
abbrev ETime := WithTop ℚ

/-- `models.ActionEvent` (payload of an action event). -/
structure ActionEvent where
  action : String
  selector : Option String
  params : List (String × String)
  call_id : String
  page_id : String
  duration_ms : ℚ
  title : String
  error : Option String
  before_snapshot : Option String
  after_snapshot : Option String
  deriving DecidableEq

/-- `models.ConsoleEvent` (payload of a console event). -/
structure ConsoleEvent where
  level : String
  text : String
  source_url : String
  line_number : ℤ
  column_number : ℤ
  deriving DecidableEq

/-- `models.ErrorEvent` (payload of a test error event). -/
structure ErrorEvent where
  message : String
  source : String
  expected : Option String
  received : Option String
  deriving DecidableEq

/-- `models.ScreenshotRef` (payload of a screenshot event). -/
structure ScreenshotRef where
  sha1 : String
  width : ℤ
  height : ℤ
  resource_path : String
  deriving DecidableEq

/-- A JSON record of the `0-trace.trace` stream (also carrying the
`context-options` fields read by `TraceArchive`).  Each field holds the
Python `entry.get(key, default)` value; `Option` marks keys whose absence
the code distinguishes from the default. -/
structure BTEntry where
  type : String
  callId : String := ""
  method : String := ""
  params : List (String × String) := []
  startTime : ℚ := 0
  endTime : Option ℚ := none
  pageId : String := ""
  title : String := ""
  resultError : Option String := none
  beforeSnapshot : Option String := none
  afterSnapshot : Option String := none
  time : ℚ := 0
  messageType : String := "log"
  text : String := ""
  locationUrl : String := ""
  locationLine : ℤ := 0
  locationColumn : ℤ := 0
  sha1 : String := ""
  width : ℤ := 0
  height : ℤ := 0
  timestamp : ℚ := 0
  monotonicTime : ℚ := 0
  wallTime : ℤ := 0
  browserName : String := ""
  viewport : Option (ℤ × ℤ) := none
  deriving DecidableEq

/-- A JSON record of the `test.trace` stream.  The error `stack` (a list
of arbitrary JSON frames, passed through untouched) is not carried. -/
structure TEntry where
  type : String
  stepId : String := ""
  callId : String := ""
  method : String := ""
  title : String := ""
  params : List (String × String) := []
  startTime : ℚ := 0
  endTime : Option ℚ := none
  message : String := ""
  deriving DecidableEq

/-- The `raw` field of `models.Event`: the originating record, or the
`{"before": ..., "after": ...}` pair for reconstructed actions. -/
inductive RawPayload
  | fromBrowser (entry : BTEntry)
  | browserPair (before afterE : BTEntry)
  | fromTest (entry : TEntry)
  | testPair (before afterE : TEntry)
  deriving DecidableEq

/-- `models.Event`: the normalized event envelope. -/
structure Event where
  index : ℕ
  timestamp_ms : ETime
  event_type : String
  subtype : Option String
  source_file : String
  raw : Option RawPayload := none
  network : Option Unit := none
  console : Option ConsoleEvent := none
  action : Option ActionEvent := none
  error : Option ErrorEvent := none
  screenshot : Option ScreenshotRef := none
  deriving DecidableEq

/-- The sort key of `_ensure_parsed`: the pair
`(e.timestamp_ms, e.event_type)`. -/
def evKey (e : Event) : ETime × String :=
  (e.timestamp_ms, e.event_type)

/-- The sort comparison of `EventIndex._ensure_parsed`, line 77:
`all_events.sort(key=lambda e: (e.timestamp_ms, e.event_type))`, i.e. the
lexicographic order on the pair `(timestamp_ms, event_type)`. -/
def eventLE (a b : Event) : Bool :=
  decide (a.timestamp_ms < b.timestamp_ms ∨
    (a.timestamp_ms = b.timestamp_ms ∧ a.event_type ≤ b.event_type))

/-- The re-indexing loop of `_ensure_parsed`, lines 80-81:
`for i, event in enumerate(all_events): event.index = i`, started at `i`. -/
def reindexFrom : ℕ → List Event → List Event
  | _, [] => []
  | i, e :: rest => { e with index := i } :: reindexFrom (i + 1) rest

/-- `EventIndex._ensure_parsed` applied to the concatenated parser outputs:
sort by `(timestamp_ms, event_type)`, then assign dense indices. -/
def ensureParsed (all_events : List Event) : List Event :=
  reindexFrom 0 (all_events.mergeSort eventLE)

/-- `EventIndex.in_range`: scan in order, yield events inside the closed
range, break at the first event past `end_ms`. -/
def in_range : List Event → ℚ → ℚ → List Event
  | [], _, _ => []
  | e :: rest, start_ms, end_ms =>
    if (start_ms : ETime) ≤ e.timestamp_ms ∧ e.timestamp_ms ≤ (end_ms : ETime) then
      e :: in_range rest start_ms end_ms
    else if (end_ms : ETime) < e.timestamp_ms then
      []
    else
      in_range rest start_ms end_ms

/-- `EventIndex.after`: full scan yielding every event with
`timestamp_ms ≥ timestamp_ms` bound (no early exit in the source). -/
def afterQ : List Event → ℚ → List Event
  | [], _ => []
  | e :: rest, t =>
    if (t : ETime) ≤ e.timestamp_ms then e :: afterQ rest t else afterQ rest t

/-- `EventIndex.before`: scan yielding events with `timestamp_ms ≤ t`,
breaking at the first event past `t`. -/
def beforeQ : List Event → ℚ → List Event
  | [], _ => []
  | e :: rest, t =>
    if e.timestamp_ms ≤ (t : ETime) then e :: beforeQ rest t else []

/-- `EventIndex.get_by_index`: `some` of the `i`-th event when
`0 ≤ i < len(events)`, else `None`. -/
def get_by_index (events : List Event) (i : ℤ) : Option Event :=
  if 0 ≤ i ∧ i < (events.length : ℤ) then events[i.toNat]? else none

/-- One step of the `_by_type` dict build of `_ensure_parsed`, lines 86-90:
append the event to its type's group, creating the group if absent
(insertion-ordered dict as an association list). -/
def addToGroup : List (String × List Event) → Event → List (String × List Event)
  | [], e => [(e.event_type, [e])]
  | (t, es) :: rest, e =>
    if t = e.event_type then (t, es ++ [e]) :: rest
    else (t, es) :: addToGroup rest e

/-- The `_by_type` dict of `_ensure_parsed`. -/
def buildByType (events : List Event) : List (String × List Event) :=
  events.foldl addToGroup []

/-- `EventIndex.by_type`: `self._by_type.get(event_type, [])`. -/
def by_type (events : List Event) (event_type : String) : List Event :=
  ((buildByType events).lookup event_type).getD []

/-- `EventIndex.has_errors`: `len(self._by_type.get("error", [])) > 0`. -/
def has_errors (events : List Event) : Bool :=
  decide (0 < (by_type events "error").length)

/-- The duration computation of `EventIndex.get_summary`, lines 192-201:
filter out `inf` timestamps, then subtract the first finite timestamp from
the last; `0` if there is no finite-timestamp event (or no event at all). -/
def summaryDuration (events : List Event) : ℚ :=
  if events.isEmpty then 0
  else
    let finite_events := events.filter (fun e => e.timestamp_ms ≠ ⊤)
    if h : finite_events = [] then 0
    else
      WithTop.untop' 0 ((finite_events.getLast h).timestamp_ms) -
        WithTop.untop' 0 ((finite_events.head h).timestamp_ms)

/-- The `event_counts` dict comprehension of `get_summary`, line 206-208:
one entry per type present in `_by_type`, holding the group's length. -/
def summaryEventCounts (events : List Event) : List (String × ℕ) :=
  (buildByType events).map (fun p => (p.1, p.2.length))

/-- The result of `EventIndex.get_summary` (archive-metadata fields are
passed in by the caller; they come from `TraceArchive`). -/
structure Summary where
  total_events : ℕ
  duration_ms : ℚ
  event_counts : List (String × ℕ)
  summary_has_errors : Bool
  test_name : String
  browser : String
  deriving DecidableEq

/-- `EventIndex.get_summary`. -/
def get_summary (events : List Event) (test_name browser : String) : Summary :=
  { total_events := events.length
    duration_ms := summaryDuration events
    event_counts := summaryEventCounts events
    summary_has_errors := has_errors events
    test_name := test_name
    browser := browser }

/-- The fixed result-dict keys of `EventIndex.correlate`, lines 237-244.
Note the absence of `"input"`. -/
def correlateTypes : List String :=
  ["network", "console", "action", "error", "screenshot", "log"]

/-- `abs(event.timestamp_ms - timestamp_ms)` of `correlate`, line 248.
Only applied to events inside a finite range, whose timestamps are finite
rationals. -/
def distanceMs (t : ℚ) (e : Event) : ℚ :=
  |WithTop.untop' 0 e.timestamp_ms - t|

/-- The initial result dict of `correlate`: every fixed key mapped to an
empty group. -/
def correlateInit : List (String × List (Event × ℚ)) :=
  correlateTypes.map (fun ty => (ty, []))

/-- The loop body of `correlate`, lines 246-250: append the
distance-annotated event to its type's group when the type is a result
key, else drop it. -/
def correlateAppend (acc : List (String × List (Event × ℚ))) (hit : Event × ℚ) :
    List (String × List (Event × ℚ)) :=
  acc.map (fun p => if p.1 = hit.1.event_type then (p.1, p.2 ++ [hit]) else p)

/-- The per-group distance sort of `correlate`, lines 253-254. -/
def distLE (a b : Event × ℚ) : Bool :=
  decide (a.2 ≤ b.2)

/-- `EventIndex.correlate`: gather events in
`[timestamp_ms - window_ms, timestamp_ms + window_ms]`, annotate each with
its distance to the center, group by type over the fixed key set, and sort
each group by distance. -/
def correlate (events : List Event) (timestamp_ms window_ms : ℚ) :
    List (String × List (Event × ℚ)) :=
  let hits := (in_range events (timestamp_ms - window_ms) (timestamp_ms + window_ms)).map
    (fun e => (e, distanceMs timestamp_ms e))
  (hits.foldl correlateAppend correlateInit).map
    (fun p => (p.1, p.2.mergeSort distLE))

/-! ## Python dicts keyed by strings (pending-span maps, zip entries) -/

/-- `d[k] = v` on a `dict[str, α]`: replace in place or append. -/
def dictInsert {α : Type} : List (String × α) → String → α → List (String × α)
  | [], k, v => [(k, v)]
  | (k', v') :: rest, k, v =>
    if k' = k then (k, v) :: rest else (k', v') :: dictInsert rest k v

/-- `del d[k]` on a `dict[str, α]` (keys are unique by construction). -/
def dictErase {α : Type} : List (String × α) → String → List (String × α)
  | [], _ => []
  | (k', v') :: rest, k => if k' = k then rest else (k', v') :: dictErase rest k

/-! ## Browser trace parser (`parsers/browser_trace.py`) -/

/-- `BrowserTraceParser._parse_console`. -/
def parse_console (entry : BTEntry) (index : ℕ) : Option Event :=
  let level := entry.messageType
  some
    { index := index
      timestamp_ms := (entry.time : ETime)
      event_type := "console"
      subtype := some level
      source_file := "0-trace.trace"
      raw := some (.fromBrowser entry)
      console := some
        { level := level
          text := entry.text
          source_url := entry.locationUrl
          line_number := entry.locationLine
          column_number := entry.locationColumn } }

/-- `BrowserTraceParser._parse_action`: merge a `before`/`after` pair into
one action event; `timestamp_ms = before.startTime`,
`duration_ms = after.get("endTime", start_time) - start_time`. -/
def parse_action (before afterE : BTEntry) (index : ℕ) : Option Event :=
  let method := before.method
  let params := before.params
  let selector := params.lookup "selector"
  let start_time := before.startTime
  let end_time := afterE.endTime.getD start_time
  let duration_ms := end_time - start_time
  let title := before.title
  let error := afterE.resultError
  some
    { index := index
      timestamp_ms := (start_time : ETime)
      event_type := "action"
      subtype := some method
      source_file := "0-trace.trace"
      raw := some (.browserPair before afterE)
      action := some
        { action := method
          selector := selector
          params := params
          call_id := before.callId
          page_id := before.pageId
          duration_ms := duration_ms
          title := title
          error := error
          before_snapshot := before.beforeSnapshot
          after_snapshot := afterE.afterSnapshot } }

/-- `BrowserTraceParser._parse_screenshot`: `None` when the frame has no
content hash. -/
def parse_screenshot (entry : BTEntry) (index : ℕ) : Option Event :=
  if entry.sha1 = "" then none
  else
    some
      { index := index
        timestamp_ms := (entry.timestamp : ETime)
        event_type := "screenshot"
        subtype := none
        source_file := "0-trace.trace"
        raw := some (.fromBrowser entry)
        screenshot := some
          { sha1 := entry.sha1
            width := entry.width
            height := entry.height
            resource_path := "resources/" ++ entry.sha1 } }

/-- `BrowserTraceParser._parse_log`. -/
def parse_log (entry : BTEntry) (index : ℕ) : Option Event :=
  some
    { index := index
      timestamp_ms := (entry.time : ETime)
      event_type := "log"
      subtype := none
      source_file := "0-trace.trace"
      raw := some (.fromBrowser entry) }

/-- `BrowserTraceParser._parse_input`: input records carry no timestamp;
the parser emits `0`. -/
def parse_input (entry : BTEntry) (index : ℕ) : Option Event :=
  some
    { index := index
      timestamp_ms := ((0 : ℚ) : ETime)
      event_type := "input"
      subtype := none
      source_file := "0-trace.trace"
      raw := some (.fromBrowser entry) }

/-- The loop state of `BrowserTraceParser.parse`: the pending `before`
map keyed by `callId`, and the per-kind running indices. -/
structure BParseState where
  pending : List (String × BTEntry) := []
  console_index : ℕ := 0
  action_index : ℕ := 0
  screenshot_index : ℕ := 0
  log_index : ℕ := 0
  input_index : ℕ := 0
  deriving DecidableEq

/-- One iteration of the `BrowserTraceParser.parse` loop: dispatch on the
record's `type` tag, returning the next state and the events yielded. -/
def bStep (st : BParseState) (entry : BTEntry) : BParseState × List Event :=
  if entry.type = "console" then
    match parse_console entry st.console_index with
    | some ev => ({ st with console_index := st.console_index + 1 }, [ev])
    | none => (st, [])
  else if entry.type = "before" then
    if entry.callId ≠ "" then
      ({ st with pending := dictInsert st.pending entry.callId entry }, [])
    else (st, [])
  else if entry.type = "after" then
    match st.pending.lookup entry.callId with
    | some before =>
      match parse_action before entry st.action_index with
      | some ev =>
        ({ st with
            pending := dictErase st.pending entry.callId
            action_index := st.action_index + 1 }, [ev])
      | none => ({ st with pending := dictErase st.pending entry.callId }, [])
    | none => (st, [])
  else if entry.type = "screencast-frame" then
    match parse_screenshot entry st.screenshot_index with
    | some ev => ({ st with screenshot_index := st.screenshot_index + 1 }, [ev])
    | none => (st, [])
  else if entry.type = "log" then
    match parse_log entry st.log_index with
    | some ev => ({ st with log_index := st.log_index + 1 }, [ev])
    | none => (st, [])
  else if entry.type = "input" then
    match parse_input entry st.input_index with
    | some ev => ({ st with input_index := st.input_index + 1 }, [ev])
    | none => (st, [])
  else (st, [])

/-- A parser's `parse` loop over a whole stream from a given state:
fold the step function, accumulating the yielded events. -/
def runParser {S E : Type} (step : S → E → S × List Event) (st : S) (entries : List E) :
    S × List Event :=
  entries.foldl (fun acc entry => ((step acc.1 entry).1, acc.2 ++ (step acc.1 entry).2)) (st, [])

/-- `BrowserTraceParser.parse` run over a whole stream from a given state,
returning the final state and all yielded events. -/
def bParseFrom (st : BParseState) (entries : List BTEntry) : BParseState × List Event :=
  runParser bStep st entries

/-- `BrowserTraceParser.parse` on a fresh parser instance. -/
def bParse (entries : List BTEntry) : List Event :=
  (bParseFrom {} entries).2

/-! ## Test trace parser (`parsers/test_trace.py`) -/

/-- `entry.get("stepId") or entry.get("callId", "")`: Python `or` falls
through on a missing or empty `stepId`. -/
def stepKey (entry : TEntry) : String :=
  if entry.stepId = "" then entry.callId else entry.stepId

/-- The escape character `\x1b` heading an ANSI color sequence. -/
def ansiEsc : Char := Char.ofNat 27

/-- Scanner state for `ANSI_ESCAPE.sub("", raw_message)`: outside any
candidate match, after `\x1b`, or inside `\x1b[` with the parameter
characters read so far (reversed). -/
inductive AnsiState
  | normal
  | seenEsc
  | inParams (ps : List Char)

/-- Left-to-right scan replicating `re.sub` of the pattern
`\x1b\[[0-9;]*m` with `""`: a complete match is dropped; on a failed
candidate the consumed characters are kept and matching resumes at the
failing character (no earlier position can start a match, since only
`\x1b` can open one and the consumed characters past the first are
`[`, digits or `;`). -/
def stripAnsiAux : List Char → AnsiState → List Char
  | [], .normal => []
  | [], .seenEsc => [ansiEsc]
  | [], .inParams ps => ansiEsc :: '[' :: ps.reverse
  | c :: rest, .normal =>
    if c = ansiEsc then stripAnsiAux rest .seenEsc
    else c :: stripAnsiAux rest .normal
  | c :: rest, .seenEsc =>
    if c = '[' then stripAnsiAux rest (.inParams [])
    else if c = ansiEsc then ansiEsc :: stripAnsiAux rest .seenEsc
    else ansiEsc :: c :: stripAnsiAux rest .normal
  | c :: rest, .inParams ps =>
    if c.isDigit || c = ';' then stripAnsiAux rest (.inParams (c :: ps))
    else if c = 'm' then stripAnsiAux rest .normal
    else if c = ansiEsc then (ansiEsc :: '[' :: ps.reverse) ++ stripAnsiAux rest .seenEsc
    else (ansiEsc :: '[' :: ps.reverse) ++ (c :: stripAnsiAux rest .normal)

/-- `ANSI_ESCAPE.sub("", raw_message)`. -/
def stripAnsi (s : String) : String :=
  String.mk (stripAnsiAux s.data .normal)

/-- One line of `TestTraceParser._parse_assertion`: strip the line, and on
an `Expected:`/`Received:` head keep the stripped remainder. -/
def parseAssertionLine (acc : Option String × Option String) (raw_line : String) :
    Option String × Option String :=
  let stripped := raw_line.trim
  if stripped.startsWith "Expected:" then (some ((stripped.drop 9).trim), acc.2)
  else if stripped.startsWith "Received:" then (acc.1, some ((stripped.drop 9).trim))
  else acc

/-- `TestTraceParser._parse_assertion`. -/
def parse_assertion (message : String) : Option String × Option String :=
  (message.splitOn "\n").foldl parseAssertionLine (none, none)

/-- `TestTraceParser._parse_test_action`. -/
def parse_test_action (before afterE : TEntry) (index : ℕ) : Option Event :=
  let method := before.method
  let title := before.title
  let params := before.params
  let start_time := before.startTime
  let end_time := afterE.endTime.getD start_time
  let duration_ms := end_time - start_time
  some
    { index := index
      timestamp_ms := (start_time : ETime)
      event_type := "action"
      subtype := some method
      source_file := "test.trace"
      raw := some (.testPair before afterE)
      action := some
        { action := method
          selector := none
          params := params
          call_id := if before.callId = "" then before.stepId else before.callId
          page_id := ""
          duration_ms := duration_ms
          title := title
          error := none
          before_snapshot := none
          after_snapshot := none } }

/-- `TestTraceParser._parse_error`: errors carry no timestamp in the
source stream, so the event gets the sort-last sentinel
`timestamp_ms = float("inf")` (`⊤` here). -/
def parse_error (entry : TEntry) (index : ℕ) : Option Event :=
  let message := stripAnsi entry.message
  let er := parse_assertion message
  some
    { index := index
      timestamp_ms := (⊤ : ETime)
      event_type := "error"
      subtype := some "test_failure"
      source_file := "test.trace"
      raw := some (.fromTest entry)
      error := some
        { message := message
          source := "test.trace"
          expected := er.1
          received := er.2 } }

/-- The loop state of `TestTraceParser.parse`: the pending `before` map
keyed by `stepId`/`callId`, and the running indices. -/
structure TParseState where
  pending : List (String × TEntry) := []
  action_index : ℕ := 0
  error_index : ℕ := 0
  deriving DecidableEq

/-- One iteration of the `TestTraceParser.parse` loop. -/
def tStep (st : TParseState) (entry : TEntry) : TParseState × List Event :=
  if entry.type = "before" then
    if stepKey entry ≠ "" then
      ({ st with pending := dictInsert st.pending (stepKey entry) entry }, [])
    else (st, [])
  else if entry.type = "after" then
    match st.pending.lookup (stepKey entry) with
    | some before =>
      match parse_test_action before entry st.action_index with
      | some ev =>
        ({ st with
            pending := dictErase st.pending (stepKey entry)
            action_index := st.action_index + 1 }, [ev])
      | none => ({ st with pending := dictErase st.pending (stepKey entry) }, [])
    | none => (st, [])
  else if entry.type = "error" then
    match parse_error entry st.error_index with
    | some ev => ({ st with error_index := st.error_index + 1 }, [ev])
    | none => (st, [])
  else (st, [])

/-- `TestTraceParser.parse` run over a whole stream from a given state. -/
def tParseFrom (st : TParseState) (entries : List TEntry) : TParseState × List Event :=
  runParser tStep st entries

/-- `TestTraceParser.parse` on a fresh parser instance. -/
def tParse (entries : List TEntry) : List Event :=
  (tParseFrom {} entries).2

/-! ## Archive reader (`archive.py`) -/

/-- A byte string (each entry `< 256`; the bound is irrelevant to the
claims). -/
abbrev ByteSeq := List ℕ

/-- The Python exceptions arising in `TraceArchive` resource access. -/
inductive PyExn
  | keyError (name : String)
  | unicodeDecodeError
  deriving DecidableEq

/-- The zip member table of an open archive: entry name to contents. -/
abbrev ZipEntries := List (String × ByteSeq)

/-- `ZipFile.read(name)`: the member's bytes, or a raised `KeyError` when
no member has that name. -/
def zfRead (zf : ZipEntries) (name : String) : Except PyExn ByteSeq :=
  match zf.lookup name with
  | some contents => .ok contents
  | none => .error (.keyError name)

/-- `str.startswith(pre)`: character-wise comparison of the head of the
string (kernel-reducible rendering of `String.startsWith`). -/
def pyStartsWith (s pre : String) : Bool :=
  pre.data.isPrefixOf s.data

/-- `TraceArchive.get_resource`: read the entry under the
`resources/` namespace (prefixing the hash when the argument is not
already a full resource path).  No exception handler: a missing member's
`KeyError` propagates to the caller. -/
def get_resource (zf : ZipEntries) (sha1_or_path : String) : Except PyExn ByteSeq :=
  if pyStartsWith sha1_or_path "resources/" then zfRead zf sha1_or_path
  else zfRead zf ("resources/" ++ sha1_or_path)

/-- Strict UTF-8 decoding, one byte at a time: `pending` continuation
bytes remain, `cp` is the accumulated code point, `lo` the smallest value
the sequence may encode (overlong rejection); surrogates and values past
`0x10FFFF` are rejected, as Python's `bytes.decode("utf-8")` does. -/
def utf8DecodeAux : ByteSeq → ℕ → ℕ → ℕ → List Char → Option (List Char)
  | [], pending, _, _, acc => if pending = 0 then some acc.reverse else none
  | b :: rest, 0, _, _, acc =>
    if b < 128 then utf8DecodeAux rest 0 0 0 (Char.ofNat b :: acc)
    else if 194 ≤ b ∧ b ≤ 223 then utf8DecodeAux rest 1 (b - 192) 128 acc
    else if 224 ≤ b ∧ b ≤ 239 then utf8DecodeAux rest 2 (b - 224) 2048 acc
    else if 240 ≤ b ∧ b ≤ 244 then utf8DecodeAux rest 3 (b - 240) 65536 acc
    else none
  | b :: rest, p + 1, cp, lo, acc =>
    if 128 ≤ b ∧ b ≤ 191 then
      let cp2 := cp * 64 + (b - 128)
      if p = 0 then
        if lo ≤ cp2 ∧ cp2 ≤ 1114111 ∧ ¬(55296 ≤ cp2 ∧ cp2 ≤ 57343) then
          utf8DecodeAux rest 0 0 0 (Char.ofNat cp2 :: acc)
        else none
      else utf8DecodeAux rest p cp2 lo acc
    else none

/-- `bytes.decode("utf-8")`: the decoded string, or `none` for the raised
`UnicodeDecodeError`. -/
def utf8Decode (bs : ByteSeq) : Option String :=
  (utf8DecodeAux bs 0 0 0 []).map String.mk

/-- `TraceArchive.get_resource_text`: decode the resource as UTF-8,
catching `KeyError` and `UnicodeDecodeError` into `None`. -/
def get_resource_text (zf : ZipEntries) (sha1_or_path : String) : Option String :=
  match get_resource zf sha1_or_path with
  | .ok contents =>
    match utf8Decode contents with
    | some text => some text
    | none => none
  | .error (.keyError _) => none
  | .error .unicodeDecodeError => none

/-- The empty dict `{}` returned by `get_context_options` when the stream
has no `context-options` record; every getter's `.get(key, default)` then
yields the default, which is what the all-default `BTEntry` holds. -/
def emptyCtx : BTEntry :=
  { type := "context-options" }

/-- `TraceArchive.get_context_options` without the memo cache: first
`context-options`-tagged record of the browser trace stream, else the
empty record. -/
def get_context_options (browser_trace : List BTEntry) : BTEntry :=
  (browser_trace.find? (fun entry => entry.type = "context-options")).getD emptyCtx

/-- `TraceArchive.get_context_options` with its `self._context_options`
memo cell made explicit: returns the result and the updated cell. -/
def getContextOptionsMemo (browser_trace : List BTEntry) (cache : Option BTEntry) :
    BTEntry × Option BTEntry :=
  match cache with
  | some ctx => (ctx, some ctx)
  | none =>
    match browser_trace.find? (fun entry => entry.type = "context-options") with
    | some entry => (entry, some entry)
    | none => (emptyCtx, some emptyCtx)

/-- `TraceArchive.get_trace_start_time`: `ctx.get("monotonicTime", 0.0)`. -/
def get_trace_start_time (browser_trace : List BTEntry) : ℚ :=
  (get_context_options browser_trace).monotonicTime

/-- `TraceArchive.get_wall_time`: `ctx.get("wallTime", 0)`. -/
def get_wall_time (browser_trace : List BTEntry) : ℤ :=
  (get_context_options browser_trace).wallTime

/-- `TraceArchive.get_test_name`: `ctx.get("title", "")`. -/
def get_test_name (browser_trace : List BTEntry) : String :=
  (get_context_options browser_trace).title

/-- `TraceArchive.get_browser_name`: `ctx.get("browserName", "")`. -/
def get_browser_name (browser_trace : List BTEntry) : String :=
  (get_context_options browser_trace).browserName

/-- `TraceArchive.get_viewport`. -/
def get_viewport (browser_trace : List BTEntry) : ℤ × ℤ :=
  ((get_context_options browser_trace).viewport).getD (0, 0)

/-! ## Derived notions and sample inputs used by the verification -/

/-- The lexicographic order on sort keys that `list.sort` uses for
Python tuples: strictly smaller first component, or equal first
components and `≤` second components. -/
def keyRel (x y : ETime × String) : Prop :=
  x.1 < y.1 ∨ (x.1 = y.1 ∧ x.2 ≤ y.2)

/-- The event is an action event reconstructed for the given call
identifier. -/
def isActionFor (call_id : String) (ev : Event) : Bool :=
  ev.event_type == "action" &&
    (match ev.action with
     | some act => act.call_id == call_id
     | none => false)

/-- The keys of an association list are distinct (true of every state a
Python dict can reach). -/
def keysNodup {α : Type} (m : List (String × α)) : Prop :=
  (m.map Prod.fst).Nodup

/-- Every pending `before` of the browser parser is stored under its own
`callId`. -/
def pendingKeyed (m : List (String × BTEntry)) : Prop :=
  ∀ p ∈ m, p.2.callId = p.1 ∧ p.1 ≠ ""

/-- Every pending `before` of the test parser is stored under its own
step key. -/
def pendingKeyedT (m : List (String × TEntry)) : Prop :=
  ∀ p ∈ m, stepKey p.2 = p.1 ∧ p.1 ≠ ""

/-- A synthetic `before` record: `callId=X, startTime=100`. -/
def sampleBefore : BTEntry :=
  { type := "before", callId := "X", startTime := 100 }

/-- A synthetic `after` record: `callId=X, endTime=150`. -/
def sampleAfter : BTEntry :=
  { type := "after", callId := "X", endTime := some 150 }

/-- A synthetic input event at timestamp `0`. -/
def sampleInputEvent : Event :=
  { index := 0
    timestamp_ms := ((0 : ℚ) : ETime)
    event_type := "input"
    subtype := none
    source_file := "0-trace.trace" }

/-- A synthetic console event at timestamp `5`. -/
def sampleConsoleEvent : Event :=
  { index := 0
    timestamp_ms := ((5 : ℚ) : ETime)
    event_type := "console"
    subtype := none
    source_file := "0-trace.trace" }

/-! ## Order lemmas for the sort comparison -/

theorem eventLE_iff_keyRel (a b : Event) :
    eventLE a b = true ↔ keyRel (evKey a) (evKey b) := by
  simp [eventLE, keyRel, evKey]

theorem eventLE_trans (a b c : Event) (hab : eventLE a b) (hbc : eventLE b c) :
    eventLE a c := by
  simp only [eventLE, decide_eq_true_eq] at *
  rcases hab with h1 | ⟨h1, h1'⟩ <;> rcases hbc with h2 | ⟨h2, h2'⟩
  · exact Or.inl (h1.trans h2)
  · exact Or.inl (h2 ▸ h1)
  · exact Or.inl (h1 ▸ h2)
  · exact Or.inr ⟨h1.trans h2, le_trans h1' h2'⟩

theorem eventLE_total (a b : Event) : eventLE a b || eventLE b a := by
  simp only [Bool.or_eq_true, eventLE, decide_eq_true_eq]
  rcases lt_trichotomy a.timestamp_ms b.timestamp_ms with h | h | h
  · exact Or.inl (Or.inl h)
  · rcases le_total a.event_type b.event_type with h2 | h2
    · exact Or.inl (Or.inr ⟨h, h2⟩)
    · exact Or.inr (Or.inr ⟨h.symm, h2⟩)
  · exact Or.inr (Or.inl h)

/-! ## Re-indexing lemmas -/

theorem reindexFrom_map_key (i : ℕ) (l : List Event) :
    (reindexFrom i l).map evKey = l.map evKey := by
  induction l generalizing i with
  | nil => rfl
  | cons e rest ih => simp [reindexFrom, evKey, ih]

theorem reindexFrom_length (i : ℕ) (l : List Event) :
    (reindexFrom i l).length = l.length := by
  induction l generalizing i with
  | nil => rfl
  | cons e rest ih => simp [reindexFrom, ih]

theorem reindexFrom_getElem? (i n : ℕ) (l : List Event) :
    (reindexFrom i l)[n]? = (l[n]?).map (fun e => { e with index := i + n }) := by
  induction l generalizing i n with
  | nil => simp [reindexFrom]
  | cons e rest ih =>
    cases n with
    | zero => simp [reindexFrom]
    | succ m =>
      simp only [reindexFrom, List.getElem?_cons_succ, ih (i + 1) m]
      have : i + 1 + m = i + (m + 1) := by omega
      rw [this]

/-! ## Sortedness of the constructed index -/

theorem mergeSort_pairwise (evs : List Event) :
    (evs.mergeSort eventLE).Pairwise (fun a b => eventLE a b) :=
  List.sorted_mergeSort eventLE_trans eventLE_total evs

theorem ensureParsed_pairwise (evs : List Event) :
    (ensureParsed evs).Pairwise (fun a b => keyRel (evKey a) (evKey b)) := by
  have hs : (evs.mergeSort eventLE).Pairwise (fun a b => keyRel (evKey a) (evKey b)) :=
    (mergeSort_pairwise evs).imp (fun h => (eventLE_iff_keyRel _ _).mp h)
  have hmap : ((evs.mergeSort eventLE).map evKey).Pairwise keyRel :=
    List.pairwise_map.mpr hs
  have hmap2 : ((ensureParsed evs).map evKey).Pairwise keyRel := by
    rw [ensureParsed, reindexFrom_map_key]
    exact hmap
  exact List.pairwise_map.mp hmap2

theorem ensureParsed_ts_mono (evs : List Event) :
    (ensureParsed evs).Pairwise (fun a b => a.timestamp_ms ≤ b.timestamp_ms) :=
  (ensureParsed_pairwise evs).imp (fun h => by
    rcases h with h | ⟨h, _⟩
    · exact le_of_lt h
    · exact le_of_eq h)

/-- C1: after index construction, the sequence yielded by `all()` is
totally ordered by `(timestamp_ms, event_type)`: every adjacent pair has a
strictly smaller timestamp, or equal timestamps and lexicographically
`≤` type names; and every `+infinity`-timestamp event comes after every
finite-timestamp event. -/
theorem all_sorted_by_timestamp_then_type (evs : List Event) :
    ((ensureParsed evs).Chain' (fun a b =>
      a.timestamp_ms < b.timestamp_ms ∨
        (a.timestamp_ms = b.timestamp_ms ∧ a.event_type ≤ b.event_type))) ∧
    ((ensureParsed evs).Pairwise (fun a b =>
      a.timestamp_ms = ⊤ → b.timestamp_ms = ⊤)) := by
  have hp : (ensureParsed evs).Pairwise (fun a b =>
      a.timestamp_ms < b.timestamp_ms ∨
        (a.timestamp_ms = b.timestamp_ms ∧ a.event_type ≤ b.event_type)) :=
    (ensureParsed_pairwise evs).imp (fun h => by
      simpa [keyRel, evKey] using h)
  constructor
  · exact List.Pairwise.chain' hp
  · refine hp.imp (fun h ht => ?_)
    rcases h with h | ⟨h, _⟩
    · exact absurd (ht ▸ h) not_top_lt
    · exact h.symm.trans ht

/-! ## Range and one-sided queries -/

/-- On a timestamp-sorted list, the early-exit scan of `in_range` agrees
with the naive filter: the break at the first event past `end_ms` loses
nothing. -/
theorem in_range_eq_filter (l : List Event)
    (hl : l.Pairwise (fun a b => a.timestamp_ms ≤ b.timestamp_ms)) (s e : ℚ) :
    in_range l s e = l.filter (fun ev =>
      decide ((s : ETime) ≤ ev.timestamp_ms ∧ ev.timestamp_ms ≤ (e : ETime))) := by
  induction l with
  | nil => rfl
  | cons ev rest ih =>
    rcases List.pairwise_cons.mp hl with ⟨hhead, htail⟩
    by_cases h1 : (s : ETime) ≤ ev.timestamp_ms ∧ ev.timestamp_ms ≤ (e : ETime)
    · simp [in_range, h1, List.filter_cons, ih htail]
    · by_cases h2 : (e : ETime) < ev.timestamp_ms
      · simp [in_range, h1, h2, List.filter_cons]
        exact fun a ha _ => lt_of_lt_of_le h2 (hhead a ha)
      · simp [in_range, h1, h2, List.filter_cons, ih htail]

theorem ensureParsed_singleton (ev : Event) :
    ensureParsed [ev] = [{ ev with index := 0 }] := by
  simp [ensureParsed, reindexFrom]

/-- C3: for every archive (any merged event list) and bounds
`start ≤ end`, the early-exit linear scan `in_range` returns exactly the
events that naively filtering `all()` by `start ≤ timestamp_ms ≤ end`
returns, in the same order. -/
theorem in_range_eq_naive_filter (evs : List Event) (s e : ℚ) (hse : s ≤ e) :
    in_range (ensureParsed evs) s e = (ensureParsed evs).filter (fun ev =>
      decide ((s : ETime) ≤ ev.timestamp_ms ∧ ev.timestamp_ms ≤ (e : ETime))) :=
  in_range_eq_filter _ (ensureParsed_ts_mono evs) s e

theorem in_range_eq_naive_filter_witness :
    (0 : ℚ) ≤ 10 ∧
    in_range (ensureParsed [sampleConsoleEvent]) 0 10 =
      (ensureParsed [sampleConsoleEvent]).filter (fun ev =>
        decide (((0 : ℚ) : ETime) ≤ ev.timestamp_ms ∧ ev.timestamp_ms ≤ ((10 : ℚ) : ETime))) :=
  ⟨by norm_num, in_range_eq_naive_filter [sampleConsoleEvent] 0 10 (by norm_num)⟩

theorem afterQ_eq_filter (l : List Event) (t : ℚ) :
    afterQ l t = l.filter (fun e => decide ((t : ETime) ≤ e.timestamp_ms)) := by
  induction l with
  | nil => rfl
  | cons e rest ih =>
    by_cases h : (t : ETime) ≤ e.timestamp_ms <;> simp [afterQ, h, ih, List.filter_cons]

theorem beforeQ_eq_filter (l : List Event)
    (hl : l.Pairwise (fun a b => a.timestamp_ms ≤ b.timestamp_ms)) (t : ℚ) :
    beforeQ l t = l.filter (fun e => decide (e.timestamp_ms ≤ (t : ETime))) := by
  induction l with
  | nil => rfl
  | cons e rest ih =>
    rcases List.pairwise_cons.mp hl with ⟨hhead, htail⟩
    by_cases h : e.timestamp_ms ≤ (t : ETime)
    · simp [beforeQ, h, List.filter_cons, ih htail]
    · simp [beforeQ, h, List.filter_cons]
      exact fun a ha => lt_of_lt_of_le (not_le.mp h) (hhead a ha)

/-- C9: `after(t)` returns exactly the events with `timestamp_ms ≥ t` and
`before(t)` exactly those with `timestamp_ms ≤ t`, each in chronological
order; an event at exactly `t` is in both, and every event is in at least
one of the two. -/
theorem after_before_inclusive (evs : List Event) (t : ℚ) :
    afterQ (ensureParsed evs) t =
      (ensureParsed evs).filter (fun e => decide ((t : ETime) ≤ e.timestamp_ms)) ∧
    beforeQ (ensureParsed evs) t =
      (ensureParsed evs).filter (fun e => decide (e.timestamp_ms ≤ (t : ETime))) ∧
    (∀ e ∈ ensureParsed evs, e.timestamp_ms = (t : ETime) →
      e ∈ afterQ (ensureParsed evs) t ∧ e ∈ beforeQ (ensureParsed evs) t) ∧
    (∀ e ∈ ensureParsed evs,
      e ∈ afterQ (ensureParsed evs) t ∨ e ∈ beforeQ (ensureParsed evs) t) := by
  have ha := afterQ_eq_filter (ensureParsed evs) t
  have hb := beforeQ_eq_filter (ensureParsed evs) (ensureParsed_ts_mono evs) t
  refine ⟨ha, hb, ?_, ?_⟩
  · intro e he hts
    constructor
    · rw [ha, List.mem_filter]
      exact ⟨he, by simp [hts]⟩
    · rw [hb, List.mem_filter]
      exact ⟨he, by simp [hts]⟩
  · intro e he
    rcases le_total (t : ETime) e.timestamp_ms with h | h
    · exact Or.inl (by rw [ha, List.mem_filter]; exact ⟨he, by simpa using h⟩)
    · exact Or.inr (by rw [hb, List.mem_filter]; exact ⟨he, by simpa using h⟩)

theorem after_before_inclusive_witness :
    sampleConsoleEvent ∈ afterQ (ensureParsed [sampleConsoleEvent]) 5 ∧
    sampleConsoleEvent ∈ beforeQ (ensureParsed [sampleConsoleEvent]) 5 :=
  (after_before_inclusive [sampleConsoleEvent] 5).2.2.1 sampleConsoleEvent
    (by rw [ensureParsed_singleton]; simp [sampleConsoleEvent]) rfl

/-! ## Random access by sequence index -/

/-- C7: `sequence_index` is dense (the event at position `i` carries index
`i`), and `get_by_index(i)` returns exactly the `i`-th element of `all()`
for `0 ≤ i < count`, `None` otherwise. -/
theorem get_by_index_spec (evs : List Event) (i : ℤ) :
    (∀ (n : ℕ) (e : Event), (ensureParsed evs)[n]? = some e → e.index = n) ∧
    (0 ≤ i → i < ((ensureParsed evs).length : ℤ) →
      get_by_index (ensureParsed evs) i = (ensureParsed evs)[i.toNat]?) ∧
    ((i < 0 ∨ ((ensureParsed evs).length : ℤ) ≤ i) →
      get_by_index (ensureParsed evs) i = none) := by
  refine ⟨?_, ?_, ?_⟩
  · intro n e he
    rw [ensureParsed, reindexFrom_getElem?] at he
    rcases Option.map_eq_some'.mp he with ⟨x, _, hx⟩
    rw [← hx]
    show 0 + n = n
    omega
  · intro h1 h2
    rw [get_by_index, if_pos ⟨h1, h2⟩]
  · intro h
    rw [get_by_index, if_neg]
    omega

theorem get_by_index_spec_witness :
    (0 : ℤ) ≤ 0 ∧
    get_by_index (ensureParsed [sampleConsoleEvent]) 0 =
      (ensureParsed [sampleConsoleEvent])[(0 : ℤ).toNat]? :=
  ⟨le_refl 0, (get_by_index_spec [sampleConsoleEvent] 0).2.1 (le_refl 0)
    (by rw [ensureParsed_singleton]; simp)⟩

/-! ## Dict lemmas (pending-span maps) -/

theorem lookup_cons_eq {α : Type} (k k₀ : String) (v₀ : α) (rest : List (String × α)) :
    ((k₀, v₀) :: rest).lookup k = if k = k₀ then some v₀ else rest.lookup k := by
  by_cases h : k = k₀
  · simp [List.lookup, h]
  · have hb : (k == k₀) = false := beq_eq_false_iff_ne.mpr h
    simp [List.lookup, hb, h]

theorem lookup_none_of_not_mem_keys {α : Type} (m : List (String × α)) (k : String)
    (h : k ∉ m.map Prod.fst) : m.lookup k = none := by
  induction m with
  | nil => rfl
  | cons p rest ih =>
    obtain ⟨k₀, v₀⟩ := p
    simp only [List.map_cons, List.mem_cons, not_or] at h
    rw [lookup_cons_eq, if_neg h.1]
    exact ih h.2

theorem lookup_dictInsert {α : Type} (m : List (String × α)) (k k' : String) (v : α) :
    (dictInsert m k v).lookup k' = if k' = k then some v else m.lookup k' := by
  induction m with
  | nil =>
    by_cases h : k' = k <;> simp [dictInsert, lookup_cons_eq, h]
  | cons p rest ih =>
    obtain ⟨k₀, v₀⟩ := p
    by_cases h0 : k₀ = k
    · subst h0
      by_cases h : k' = k₀ <;> simp [dictInsert, lookup_cons_eq, h]
    · rw [dictInsert, if_neg h0, lookup_cons_eq, lookup_cons_eq]
      by_cases h : k' = k₀
      · subst h
        rw [if_pos rfl, if_pos rfl, if_neg h0]
      · rw [if_neg h, if_neg h, ih]

theorem mem_dictInsert {α : Type} (m : List (String × α)) (k : String) (v : α)
    (p : String × α) (hp : p ∈ dictInsert m k v) : p ∈ m ∨ p = (k, v) := by
  induction m with
  | nil => simpa [dictInsert] using hp
  | cons q rest ih =>
    obtain ⟨k₀, v₀⟩ := q
    by_cases h0 : k₀ = k
    · simp only [dictInsert, if_pos h0, List.mem_cons] at hp
      rcases hp with h | h
      · exact Or.inr h
      · exact Or.inl (List.mem_cons_of_mem _ h)
    · simp only [dictInsert, if_neg h0, List.mem_cons] at hp
      rcases hp with h | h
      · exact Or.inl (by simp [h])
      · rcases ih h with h2 | h2
        · exact Or.inl (List.mem_cons_of_mem _ h2)
        · exact Or.inr h2

theorem mem_keys_dictInsert {α : Type} (m : List (String × α)) (k k' : String) (v : α)
    (h : k' ∈ (dictInsert m k v).map Prod.fst) : k' ∈ m.map Prod.fst ∨ k' = k := by
  rcases List.mem_map.mp h with ⟨p, hp, hfst⟩
  rcases mem_dictInsert m k v p hp with h2 | h2
  · exact Or.inl (hfst ▸ List.mem_map_of_mem Prod.fst h2)
  · exact Or.inr (by rw [← hfst, h2])

theorem keysNodup_dictInsert {α : Type} (m : List (String × α)) (k : String) (v : α)
    (hm : keysNodup m) : keysNodup (dictInsert m k v) := by
  induction m with
  | nil => simp [dictInsert, keysNodup]
  | cons p rest ih =>
    obtain ⟨k₀, v₀⟩ := p
    simp only [keysNodup, List.map_cons, List.nodup_cons] at hm
    by_cases h0 : k₀ = k
    · subst h0
      have hrw : dictInsert ((k₀, v₀) :: rest) k₀ v = (k₀, v) :: rest := by
        simp [dictInsert]
      rw [hrw]
      simp only [keysNodup, List.map_cons, List.nodup_cons]
      exact ⟨hm.1, hm.2⟩
    · have h2 : keysNodup (dictInsert rest k v) := ih hm.2
      simp only [dictInsert, if_neg h0, keysNodup, List.map_cons, List.nodup_cons]
      refine ⟨?_, h2⟩
      intro hmem
      rcases mem_keys_dictInsert rest k k₀ v hmem with h | h
      · exact hm.1 h
      · exact h0 h

theorem dictErase_sublist {α : Type} (m : List (String × α)) (k : String) :
    List.Sublist (dictErase m k) m := by
  induction m with
  | nil => simp [dictErase]
  | cons p rest ih =>
    obtain ⟨k₀, v₀⟩ := p
    by_cases h : k₀ = k
    · simp only [dictErase, if_pos h]
      exact List.sublist_cons_self _ _
    · simp only [dictErase, if_neg h]
      exact ih.cons₂ _

theorem mem_dictErase {α : Type} (m : List (String × α)) (k : String)
    (p : String × α) (hp : p ∈ dictErase m k) : p ∈ m :=
  (dictErase_sublist m k).mem hp

theorem keysNodup_dictErase {α : Type} (m : List (String × α)) (k : String)
    (hm : keysNodup m) : keysNodup (dictErase m k) :=
  List.Nodup.sublist ((dictErase_sublist m k).map Prod.fst) hm

theorem lookup_dictErase {α : Type} (m : List (String × α)) (k k' : String)
    (hm : keysNodup m) :
    (dictErase m k).lookup k' = if k' = k then none else m.lookup k' := by
  induction m with
  | nil => by_cases h : k' = k <;> simp [dictErase, h]
  | cons p rest ih =>
    obtain ⟨k₀, v₀⟩ := p
    simp only [keysNodup, List.map_cons, List.nodup_cons] at hm
    by_cases h0 : k₀ = k
    · subst h0
      rw [dictErase, if_pos rfl, lookup_cons_eq]
      by_cases h : k' = k₀
      · subst h
        rw [if_pos rfl]
        exact lookup_none_of_not_mem_keys rest k' hm.1
      · rw [if_neg h, if_neg h]
    · rw [dictErase, if_neg h0, lookup_cons_eq, lookup_cons_eq]
      by_cases h : k' = k₀
      · subst h
        have hk : ¬k' = k := fun hh => h0 (hh ▸ rfl)
        rw [if_pos rfl, if_neg hk, if_pos rfl]
      · rw [if_neg h, ih hm.2, if_neg h]

/-! ## Parser fold lemmas -/

theorem runParser_go {S E : Type} (step : S → E → S × List Event) (entries : List E)
    (st : S) (out : List Event) :
    entries.foldl (fun acc entry =>
        ((step acc.1 entry).1, acc.2 ++ (step acc.1 entry).2)) (st, out) =
      ((runParser step st entries).1, out ++ (runParser step st entries).2) := by
  induction entries generalizing st out with
  | nil => simp [runParser]
  | cons e rest ih =>
    simp only [runParser, List.foldl_cons, List.nil_append]
    rw [ih ((step st e).1) (out ++ (step st e).2), ih ((step st e).1) ((step st e).2)]
    simp

theorem runParser_cons {S E : Type} (step : S → E → S × List Event) (e : E)
    (rest : List E) (st : S) :
    runParser step st (e :: rest) =
      ((runParser step (step st e).1 rest).1,
        (step st e).2 ++ (runParser step (step st e).1 rest).2) := by
  simp only [runParser, List.foldl_cons, List.nil_append]
  exact runParser_go step rest ((step st e).1) ((step st e).2)

theorem runParser_append {S E : Type} (step : S → E → S × List Event)
    (xs ys : List E) (st : S) :
    runParser step st (xs ++ ys) =
      ((runParser step (runParser step st xs).1 ys).1,
        (runParser step st xs).2 ++ (runParser step (runParser step st xs).1 ys).2) := by
  show (xs ++ ys).foldl _ (st, []) = _
  rw [List.foldl_append]
  have h1 : (xs.foldl (fun acc entry =>
      ((step acc.1 entry).1, acc.2 ++ (step acc.1 entry).2)) (st, [])) =
      ((runParser step st xs).1, [] ++ (runParser step st xs).2) :=
    runParser_go step xs st []
  rw [h1, List.nil_append]
  exact runParser_go step ys ((runParser step st xs).1) ((runParser step st xs).2)

theorem mem_of_lookup_eq_some {α : Type} (m : List (String × α)) (k : String) (v : α)
    (h : m.lookup k = some v) : (k, v) ∈ m := by
  induction m with
  | nil => simp [List.lookup] at h
  | cons p rest ih =>
    obtain ⟨k₀, v₀⟩ := p
    rw [lookup_cons_eq] at h
    by_cases hk : k = k₀
    · rw [if_pos hk] at h
      cases h
      simp [hk]
    · rw [if_neg hk] at h
      exact List.mem_cons_of_mem _ (ih h)

/-! ## Browser parser step lemmas -/

theorem bStep_pending_cases (st : BParseState) (e : BTEntry) :
    (bStep st e).1.pending = st.pending ∨
    (e.type = "before" ∧ e.callId ≠ "" ∧
      (bStep st e).1.pending = dictInsert st.pending e.callId e) ∨
    (e.type = "after" ∧
      (bStep st e).1.pending = dictErase st.pending e.callId) := by
  by_cases h1 : e.type = "console"
  · left; simp [bStep, h1, parse_console]
  · by_cases h2 : e.type = "before"
    · by_cases hc : e.callId = ""
      · left; simp [bStep, h1, h2, hc]
      · right; left; exact ⟨h2, hc, by simp [bStep, h1, h2, hc]⟩
    · by_cases h3 : e.type = "after"
      · rcases hl : st.pending.lookup e.callId with _ | b
        · left; simp [bStep, h1, h2, h3, hl]
        · right; right
          exact ⟨h3, by simp [bStep, h1, h2, h3, hl, parse_action]⟩
      · by_cases h4 : e.type = "screencast-frame"
        · left
          rcases hs : parse_screenshot e st.screenshot_index with _ | ev <;>
            simp [bStep, h1, h2, h3, h4, hs]
        · by_cases h5 : e.type = "log"
          · left; simp [bStep, h1, h2, h3, h4, h5, parse_log]
          · by_cases h6 : e.type = "input"
            · left; simp [bStep, h1, h2, h3, h4, h5, h6, parse_input]
            · left; simp [bStep, h1, h2, h3, h4, h5, h6]

theorem bStep_inv (st : BParseState) (e : BTEntry)
    (hk : pendingKeyed st.pending) (hn : keysNodup st.pending) :
    pendingKeyed (bStep st e).1.pending ∧ keysNodup (bStep st e).1.pending := by
  rcases bStep_pending_cases st e with h | ⟨_, hc, h⟩ | ⟨_, h⟩
  · rw [h]; exact ⟨hk, hn⟩
  · rw [h]
    constructor
    · intro p hp
      rcases mem_dictInsert _ _ _ p hp with h2 | h2
      · exact hk p h2
      · rw [h2]; exact ⟨rfl, hc⟩
    · exact keysNodup_dictInsert _ _ _ hn
  · rw [h]
    exact ⟨fun p hp => hk p (mem_dictErase _ _ p hp), keysNodup_dictErase _ _ hn⟩

theorem bStep_action_out (st : BParseState) (e : BTEntry) (X : String) (ev : Event)
    (hk : pendingKeyed st.pending)
    (hev : ev ∈ (bStep st e).2) (hX : isActionFor X ev = true) :
    e.type = "after" ∧ e.callId = X := by
  by_cases h1 : e.type = "console"
  · simp only [bStep, if_pos h1, parse_console] at hev
    simp only [List.mem_singleton] at hev
    rw [hev] at hX
    simp [isActionFor] at hX
  · by_cases h2 : e.type = "before"
    · by_cases hc : e.callId = "" <;> simp [bStep, h1, h2, hc] at hev
    · by_cases h3 : e.type = "after"
      · rcases hl : st.pending.lookup e.callId with _ | b
        · simp [bStep, h1, h2, h3, hl] at hev
        · simp only [bStep, if_neg h1, if_neg h2, if_pos h3, hl, parse_action,
            List.mem_singleton] at hev
          rw [hev] at hX
          simp only [isActionFor, Bool.and_eq_true, beq_iff_eq] at hX
          have hb : b.callId = e.callId :=
            (hk (e.callId, b) (mem_of_lookup_eq_some _ _ _ hl)).1
          exact ⟨h3, by rw [← hb]; exact hX.2⟩
      · by_cases h4 : e.type = "screencast-frame"
        · by_cases hs : e.sha1 = ""
          · simp [bStep, h1, h2, h3, h4, parse_screenshot, hs] at hev
          · simp only [bStep, if_neg h1, if_neg h2, if_neg h3, if_pos h4,
              parse_screenshot, if_neg hs, List.mem_singleton] at hev
            rw [hev] at hX
            simp [isActionFor] at hX
        · by_cases h5 : e.type = "log"
          · simp only [bStep, if_neg h1, if_neg h2, if_neg h3, if_neg h4, if_pos h5,
              parse_log, List.mem_singleton] at hev
            rw [hev] at hX
            simp [isActionFor] at hX
          · by_cases h6 : e.type = "input"
            · simp only [bStep, if_neg h1, if_neg h2, if_neg h3, if_neg h4, if_neg h5,
                if_pos h6, parse_input, List.mem_singleton] at hev
              rw [hev] at hX
              simp [isActionFor] at hX
            · simp [bStep, h1, h2, h3, h4, h5, h6] at hev

/-- Processing a stream segment containing no `before`/`after` record for
call id `X` leaves the pending entry for `X` untouched, emits no action
for `X`, and preserves the pending-map invariants. -/
theorem bRun_segment_no_x (X : String) (entries : List BTEntry) (st : BParseState)
    (hk : pendingKeyed st.pending) (hn : keysNodup st.pending)
    (h : ∀ e ∈ entries, ¬((e.type = "before" ∨ e.type = "after") ∧ e.callId = X)) :
    (runParser bStep st entries).1.pending.lookup X = st.pending.lookup X ∧
    (runParser bStep st entries).2.filter (isActionFor X) = [] ∧
    pendingKeyed (runParser bStep st entries).1.pending ∧
    keysNodup (runParser bStep st entries).1.pending := by
  induction entries generalizing st with
  | nil => exact ⟨rfl, rfl, hk, hn⟩
  | cons e rest ih =>
    have he := h e (List.mem_cons_self e rest)
    have hrest : ∀ x ∈ rest, ¬((x.type = "before" ∨ x.type = "after") ∧ x.callId = X) :=
      fun x hx => h x (List.mem_cons_of_mem e hx)
    have hinv := bStep_inv st e hk hn
    have hstep_lookup : (bStep st e).1.pending.lookup X = st.pending.lookup X := by
      rcases bStep_pending_cases st e with hcase | ⟨ht, _, hcase⟩ | ⟨ht, hcase⟩
      · rw [hcase]
      · rw [hcase, lookup_dictInsert, if_neg]
        intro hXe
        exact he ⟨Or.inl ht, hXe.symm⟩
      · rw [hcase, lookup_dictErase _ _ _ hn, if_neg]
        intro hXe
        exact he ⟨Or.inr ht, hXe.symm⟩
    have hstep_filter : (bStep st e).2.filter (isActionFor X) = [] := by
      rw [List.filter_eq_nil_iff]
      intro ev hev hX
      rcases bStep_action_out st e X ev hk hev hX with ⟨ht, hc⟩
      exact he ⟨Or.inr ht, hc⟩
    obtain ⟨ih1, ih2, ih3, ih4⟩ := ih (bStep st e).1 hinv.1 hinv.2 hrest
    rw [runParser_cons]
    exact ⟨by rw [ih1, hstep_lookup],
      by simp [List.filter_append, hstep_filter, ih2], ih3, ih4⟩

/-- Processing a stream segment with no `after` record for call id `X`
emits no action for `X` and preserves the pending-map invariants. -/
theorem bRun_segment_no_after_x (X : String) (entries : List BTEntry) (st : BParseState)
    (hk : pendingKeyed st.pending) (hn : keysNodup st.pending)
    (h : ∀ e ∈ entries, ¬(e.type = "after" ∧ e.callId = X)) :
    (runParser bStep st entries).2.filter (isActionFor X) = [] ∧
    pendingKeyed (runParser bStep st entries).1.pending ∧
    keysNodup (runParser bStep st entries).1.pending := by
  induction entries generalizing st with
  | nil => exact ⟨rfl, hk, hn⟩
  | cons e rest ih =>
    have he := h e (List.mem_cons_self e rest)
    have hrest : ∀ x ∈ rest, ¬(x.type = "after" ∧ x.callId = X) :=
      fun x hx => h x (List.mem_cons_of_mem e hx)
    have hinv := bStep_inv st e hk hn
    have hstep_filter : (bStep st e).2.filter (isActionFor X) = [] := by
      rw [List.filter_eq_nil_iff]
      intro ev hev hX
      exact he (bStep_action_out st e X ev hk hev hX)
    obtain ⟨ih1, ih2, ih3⟩ := ih (bStep st e).1 hinv.1 hinv.2 hrest
    rw [runParser_cons]
    exact ⟨by simp [List.filter_append, hstep_filter, ih1], ih2, ih3⟩

theorem bStep_before_insert (st : BParseState) (b : BTEntry)
    (hb : b.type = "before") (hid : b.callId ≠ "") :
    bStep st b = ({ st with pending := dictInsert st.pending b.callId b }, []) := by
  have hbc : ¬b.type = "console" := by rw [hb]; decide
  simp [bStep, hbc, hb, hid]

theorem bStep_after_hit (st : BParseState) (a b : BTEntry) (ha : a.type = "after")
    (hl : st.pending.lookup a.callId = some b) :
    ∃ ev, parse_action b a st.action_index = some ev ∧
      bStep st a = ({ st with
        pending := dictErase st.pending a.callId
        action_index := st.action_index + 1 }, [ev]) := by
  have hac : ¬a.type = "console" := by rw [ha]; decide
  have hab : ¬a.type = "before" := by rw [ha]; decide
  exact ⟨_, rfl, by simp [bStep, hac, hab, ha, hl, parse_action]⟩

theorem parse_action_fields (b a : BTEntry) (n : ℕ) (ev : Event)
    (h : parse_action b a n = some ev) :
    ev.event_type = "action" ∧ ev.timestamp_ms = (b.startTime : ETime) ∧
    ∃ act, ev.action = some act ∧ act.call_id = b.callId ∧
      act.duration_ms = a.endTime.getD b.startTime - b.startTime := by
  simp only [parse_action, Option.some.injEq] at h
  subst h
  exact ⟨rfl, rfl, ⟨_, rfl, rfl, rfl⟩⟩

/-- C2: a `before` record with call id `X` followed (with no other
`before`/`after` record for `X` anywhere in the stream) by an `after`
record with the same call id yields exactly one action event, with
`timestamp_ms = before.startTime` and
`duration_ms = after.endTime - before.startTime`, and the pending entry
for `X` is removed afterwards. -/
theorem browser_span_pairing
    (p q r : List BTEntry) (b a : BTEntry) (X : String) (s en : ℚ)
    (hX : X ≠ "")
    (hbt : b.type = "before") (hbid : b.callId = X) (hbst : b.startTime = s)
    (hat : a.type = "after") (haid : a.callId = X) (haen : a.endTime = some en)
    (hp : ∀ e ∈ p, ¬((e.type = "before" ∨ e.type = "after") ∧ e.callId = X))
    (hq : ∀ e ∈ q, ¬((e.type = "before" ∨ e.type = "after") ∧ e.callId = X))
    (hr : ∀ e ∈ r, ¬((e.type = "before" ∨ e.type = "after") ∧ e.callId = X)) :
    ∃ ev act,
      (bParseFrom {} (p ++ b :: (q ++ a :: r))).2.filter (isActionFor X) = [ev] ∧
      ev.event_type = "action" ∧
      ev.timestamp_ms = (s : ETime) ∧
      ev.action = some act ∧
      act.call_id = X ∧
      act.duration_ms = en - s ∧
      (bParseFrom {} (p ++ b :: (q ++ a :: r))).1.pending.lookup X = none := by
  have hk0 : pendingKeyed (({} : BParseState)).pending :=
    fun pr hpr => absurd hpr (List.not_mem_nil pr)
  have hn0 : keysNodup (({} : BParseState)).pending := List.nodup_nil
  obtain ⟨hA1, hA2, hA3, hA4⟩ := bRun_segment_no_x X p {} hk0 hn0 hp
  have hbid' : b.callId ≠ "" := by rw [hbid]; exact hX
  have hstepb := bStep_before_insert (runParser bStep {} p).1 b hbt hbid'
  have hinv2 := bStep_inv (runParser bStep {} p).1 b hA3 hA4
  obtain ⟨hB1, hB2, hB3, hB4⟩ :=
    bRun_segment_no_x X q (bStep (runParser bStep {} p).1 b).1 hinv2.1 hinv2.2 hq
  have hlookB : (runParser bStep (bStep (runParser bStep {} p).1 b).1 q).1.pending.lookup X
      = some b := by
    rw [hB1, hstepb]
    show (dictInsert (runParser bStep {} p).1.pending b.callId b).lookup X = some b
    rw [lookup_dictInsert, if_pos hbid.symm]
  obtain ⟨ev, hev_pa, hstepa⟩ := bStep_after_hit
    (runParser bStep (bStep (runParser bStep {} p).1 b).1 q).1 a b hat
    (by rw [haid]; exact hlookB)
  have hinv4 := bStep_inv
    (runParser bStep (bStep (runParser bStep {} p).1 b).1 q).1 a hB3 hB4
  obtain ⟨hD1, hD2, hD3, hD4⟩ := bRun_segment_no_x X r
    (bStep (runParser bStep (bStep (runParser bStep {} p).1 b).1 q).1 a).1
    hinv4.1 hinv4.2 hr
  obtain ⟨hty, hts, act, hact, hcid, hdur⟩ := parse_action_fields b a _ ev hev_pa
  have hXev : isActionFor X ev = true := by
    simp [isActionFor, hty, hact, hcid, hbid]
  -- assemble the whole run
  have htot : bParseFrom {} (p ++ b :: (q ++ a :: r)) =
      ((runParser bStep
          (bStep (runParser bStep (bStep (runParser bStep {} p).1 b).1 q).1 a).1 r).1,
        (runParser bStep {} p).2 ++
          ([] ++ ((runParser bStep (bStep (runParser bStep {} p).1 b).1 q).2 ++
            ([ev] ++ (runParser bStep
              (bStep (runParser bStep (bStep (runParser bStep {} p).1 b).1 q).1 a).1
              r).2)))) := by
    rw [bParseFrom, runParser_append, runParser_cons, runParser_append, runParser_cons]
    rw [hstepa]
    have h2 : (bStep (runParser bStep {} p).1 b).2 = [] := by rw [hstepb]
    rw [h2]
  refine ⟨ev, act, ?_, hty, by rw [hts, hbst], hact, by rw [hcid, hbid], ?_, ?_⟩
  · rw [htot]
    simp [List.filter_append, hA2, hB2, hD2, List.filter_cons, hXev]
  · rw [hdur, haen, hbst]
    rfl
  · rw [htot]
    show (runParser bStep _ r).1.pending.lookup X = none
    rw [hD1, hstepa]
    show (dictErase
      (runParser bStep (bStep (runParser bStep {} p).1 b).1 q).1.pending a.callId).lookup X
      = none
    rw [lookup_dictErase _ _ _ hB4, if_pos haid.symm]

theorem browser_span_pairing_witness :
    ∃ ev act,
      (bParseFrom {} ([] ++ sampleBefore :: ([] ++ sampleAfter :: []))).2.filter
        (isActionFor "X") = [ev] ∧
      ev.event_type = "action" ∧
      ev.timestamp_ms = ((100 : ℚ) : ETime) ∧
      ev.action = some act ∧
      act.call_id = "X" ∧
      act.duration_ms = 150 - 100 ∧
      (bParseFrom {} ([] ++ sampleBefore :: ([] ++ sampleAfter :: []))).1.pending.lookup "X"
        = none :=
  browser_span_pairing [] [] [] sampleBefore sampleAfter "X" 100 150
    (by decide) rfl rfl rfl rfl rfl rfl
    (fun e he => absurd he (List.not_mem_nil e))
    (fun e he => absurd he (List.not_mem_nil e))
    (fun e he => absurd he (List.not_mem_nil e))

/-! ## Test parser step lemmas -/

theorem tStep_pending_cases (st : TParseState) (e : TEntry) :
    (tStep st e).1.pending = st.pending ∨
    (e.type = "before" ∧ stepKey e ≠ "" ∧
      (tStep st e).1.pending = dictInsert st.pending (stepKey e) e) ∨
    (e.type = "after" ∧ (tStep st e).1.pending = dictErase st.pending (stepKey e)) := by
  by_cases h1 : e.type = "before"
  · by_cases hc : stepKey e = ""
    · left; simp [tStep, h1, hc]
    · right; left; exact ⟨h1, hc, by simp [tStep, h1, hc]⟩
  · by_cases h2 : e.type = "after"
    · rcases hl : st.pending.lookup (stepKey e) with _ | b
      · left; simp [tStep, h1, h2, hl]
      · right; right
        exact ⟨h2, by simp [tStep, h1, h2, hl, parse_test_action]⟩
    · by_cases h3 : e.type = "error"
      · left; simp [tStep, h1, h2, h3, parse_error]
      · left; simp [tStep, h1, h2, h3]

theorem tStep_inv (st : TParseState) (e : TEntry)
    (hk : pendingKeyedT st.pending) (hn : keysNodup st.pending) :
    pendingKeyedT (tStep st e).1.pending ∧ keysNodup (tStep st e).1.pending := by
  rcases tStep_pending_cases st e with h | ⟨_, hc, h⟩ | ⟨_, h⟩
  · rw [h]; exact ⟨hk, hn⟩
  · rw [h]
    constructor
    · intro pr hpr
      rcases mem_dictInsert _ _ _ pr hpr with h2 | h2
      · exact hk pr h2
      · rw [h2]; exact ⟨rfl, hc⟩
    · exact keysNodup_dictInsert _ _ _ hn
  · rw [h]
    exact ⟨fun pr hpr => hk pr (mem_dictErase _ _ pr hpr), keysNodup_dictErase _ _ hn⟩

theorem tStep_pair_out (st : TParseState) (e : TEntry) (ev : Event) (tb ta : TEntry)
    (hk : pendingKeyedT st.pending) (hev : ev ∈ (tStep st e).2)
    (hraw : ev.raw = some (RawPayload.testPair tb ta)) :
    e.type = "after" ∧ stepKey tb = stepKey e := by
  by_cases h1 : e.type = "before"
  · by_cases hc : stepKey e = "" <;> simp [tStep, h1, hc] at hev
  · by_cases h2 : e.type = "after"
    · rcases hl : st.pending.lookup (stepKey e) with _ | b
      · simp [tStep, h1, h2, hl] at hev
      · simp only [tStep, if_neg h1, if_pos h2, hl, parse_test_action,
          List.mem_singleton] at hev
        rw [hev] at hraw
        simp only [Option.some.injEq, RawPayload.testPair.injEq] at hraw
        refine ⟨h2, ?_⟩
        rw [← hraw.1]
        exact (hk (stepKey e, b) (mem_of_lookup_eq_some _ _ _ hl)).1
    · by_cases h3 : e.type = "error"
      · simp only [tStep, if_neg h1, if_neg h2, if_pos h3, parse_error,
          List.mem_singleton] at hev
        rw [hev] at hraw
        simp at hraw
      · simp [tStep, h1, h2, h3] at hev

/-- Processing a test stream with no matching `after` for step key `Y`
yields no action event reconstructed from a `before` stored under `Y`. -/
theorem tRun_segment_no_after_y (Y : String) (entries : List TEntry) (st : TParseState)
    (hk : pendingKeyedT st.pending) (hn : keysNodup st.pending)
    (h : ∀ e ∈ entries, ¬(e.type = "after" ∧ stepKey e = Y)) :
    (∀ ev ∈ (runParser tStep st entries).2, ∀ tb ta,
      ev.raw = some (RawPayload.testPair tb ta) → stepKey tb ≠ Y) ∧
    pendingKeyedT (runParser tStep st entries).1.pending ∧
    keysNodup (runParser tStep st entries).1.pending := by
  induction entries generalizing st with
  | nil =>
    refine ⟨?_, hk, hn⟩
    intro ev hev
    exact absurd hev (List.not_mem_nil ev)
  | cons e rest ih =>
    have he := h e (List.mem_cons_self e rest)
    have hrest : ∀ x ∈ rest, ¬(x.type = "after" ∧ stepKey x = Y) :=
      fun x hx => h x (List.mem_cons_of_mem e hx)
    have hinv := tStep_inv st e hk hn
    obtain ⟨ih1, ih2, ih3⟩ := ih (tStep st e).1 hinv.1 hinv.2 hrest
    rw [runParser_cons]
    refine ⟨?_, ih2, ih3⟩
    intro ev hev tb ta hraw
    rcases List.mem_append.mp hev with hev | hev
    · obtain ⟨hty, hkey⟩ := tStep_pair_out st e ev tb ta hk hev hraw
      rw [hkey]
      exact fun hY => he ⟨hty, hY⟩
    · exact ih1 ev hev tb ta hraw

theorem bStep_after_miss (st : BParseState) (a : BTEntry) (ha : a.type = "after")
    (hl : st.pending.lookup a.callId = none) : bStep st a = (st, []) := by
  have h1 : ¬a.type = "console" := by rw [ha]; decide
  have h2 : ¬a.type = "before" := by rw [ha]; decide
  simp [bStep, h1, h2, ha, hl]

theorem tStep_after_miss (st : TParseState) (a : TEntry) (ha : a.type = "after")
    (hl : st.pending.lookup (stepKey a) = none) : tStep st a = (st, []) := by
  have h1 : ¬a.type = "before" := by rw [ha]; decide
  simp [tStep, h1, ha, hl]

/-- C6: an unmatched span half produces no event and no error, in both
parsers: a `before` whose identifier never gets a matching `after` yields
no action event for it, and an `after` with no pending `before` for its
identifier is dropped with the state unchanged. -/
theorem unmatched_halves_dropped
    (X Y : String) (bentries : List BTEntry) (tentries : List TEntry)
    (hb : ∀ e ∈ bentries, ¬(e.type = "after" ∧ e.callId = X))
    (ht : ∀ e ∈ tentries, ¬(e.type = "after" ∧ stepKey e = Y)) :
    (bParse bentries).filter (isActionFor X) = [] ∧
    (∀ ev ∈ tParse tentries, ∀ tb ta,
      ev.raw = some (RawPayload.testPair tb ta) → stepKey tb ≠ Y) ∧
    (∀ (st : BParseState) (a : BTEntry), a.type = "after" →
      st.pending.lookup a.callId = none → bStep st a = (st, [])) ∧
    (∀ (st : TParseState) (a : TEntry), a.type = "after" →
      st.pending.lookup (stepKey a) = none → tStep st a = (st, [])) := by
  have hbk : pendingKeyed (({} : BParseState)).pending :=
    fun pr hpr => absurd hpr (List.not_mem_nil pr)
  have hbn : keysNodup (({} : BParseState)).pending := List.nodup_nil
  have htk : pendingKeyedT (({} : TParseState)).pending :=
    fun pr hpr => absurd hpr (List.not_mem_nil pr)
  have htn : keysNodup (({} : TParseState)).pending := List.nodup_nil
  exact ⟨(bRun_segment_no_after_x X bentries {} hbk hbn hb).1,
    (tRun_segment_no_after_y Y tentries {} htk htn ht).1,
    bStep_after_miss, tStep_after_miss⟩

theorem unmatched_halves_dropped_witness :
    (bParse [sampleBefore]).filter (isActionFor "X") = [] ∧
    (∀ ev ∈ tParse [{ type := "before", stepId := "Y" }], ∀ tb ta,
      ev.raw = some (RawPayload.testPair tb ta) → stepKey tb ≠ "Y") ∧
    (∀ (st : BParseState) (a : BTEntry), a.type = "after" →
      st.pending.lookup a.callId = none → bStep st a = (st, [])) ∧
    (∀ (st : TParseState) (a : TEntry), a.type = "after" →
      st.pending.lookup (stepKey a) = none → tStep st a = (st, [])) :=
  unmatched_halves_dropped "X" "Y" [sampleBefore] [{ type := "before", stepId := "Y" }]
    (by decide) (by decide)

/-! ## Type grouping (`_by_type`) lemmas -/

theorem lookup_addToGroup (acc : List (String × List Event)) (e : Event) (t : String) :
    (addToGroup acc e).lookup t =
      if t = e.event_type then some (((acc.lookup t).getD []) ++ [e])
      else acc.lookup t := by
  induction acc with
  | nil =>
    by_cases h : t = e.event_type <;> simp [addToGroup, lookup_cons_eq, h]
  | cons p rest ih =>
    obtain ⟨t₀, es₀⟩ := p
    show (if t₀ = e.event_type then (t₀, es₀ ++ [e]) :: rest
        else (t₀, es₀) :: addToGroup rest e).lookup t = _
    by_cases h0 : t₀ = e.event_type
    · rw [if_pos h0, lookup_cons_eq, lookup_cons_eq]
      by_cases h : t = t₀
      · rw [if_pos h, if_pos (h.trans h0), if_pos h, Option.getD_some]
      · have h2 : ¬t = e.event_type := fun hc => h (hc.trans h0.symm)
        rw [if_neg h, if_neg h, if_neg h2]
    · rw [if_neg h0, lookup_cons_eq, lookup_cons_eq, ih]
      by_cases h : t = t₀
      · have h2 : ¬t = e.event_type := fun hc => h0 (h.symm.trans hc)
        rw [if_pos h, if_neg h2, if_pos h]
      · by_cases h2 : t = e.event_type
        · rw [if_neg h, if_pos h2, if_pos h2, if_neg h]
        · rw [if_neg h, if_neg h2, if_neg h2, if_neg h]

theorem foldl_addToGroup_lookup (l : List Event) (acc : List (String × List Event))
    (t : String) :
    ((l.foldl addToGroup acc).lookup t).getD [] =
      ((acc.lookup t).getD []) ++ l.filter (fun e => decide (e.event_type = t)) := by
  induction l generalizing acc with
  | nil => simp
  | cons e rest ih =>
    rw [List.foldl_cons, ih, lookup_addToGroup, List.filter_cons]
    by_cases h : t = e.event_type
    · rw [if_pos h, if_pos (by simp [h])]
      simp
    · rw [if_neg h, if_neg (by simp only [decide_eq_true_eq]; exact fun hc => h hc.symm)]

theorem by_type_eq_filter (l : List Event) (t : String) :
    by_type l t = l.filter (fun e => decide (e.event_type = t)) := by
  rw [by_type, buildByType, foldl_addToGroup_lookup]
  rfl

theorem lookup_map_val {α β : Type} (m : List (String × α)) (f : α → β) (k : String) :
    (m.map (fun p => (p.1, f p.2))).lookup k = (m.lookup k).map f := by
  induction m with
  | nil => rfl
  | cons p rest ih =>
    obtain ⟨k₀, v₀⟩ := p
    by_cases h : k = k₀ <;> simp [lookup_cons_eq, h, ih]

theorem parse_error_fields (entry : TEntry) (n : ℕ) (ev : Event)
    (h : parse_error entry n = some ev) :
    ev.timestamp_ms = ⊤ ∧ ev.event_type = "error" := by
  simp only [parse_error, Option.some.injEq] at h
  subst h
  exact ⟨rfl, rfl⟩

/-- C8: `summary()` reports the duration as last-finite minus first-finite
timestamp (`0` when no finite-timestamp event exists), `+infinity` events
excluded; per-type counts match the chronological sequence; the errors
flag is set exactly when an error event exists; and error events parsed
from the test stream carry the `+infinity` sentinel. -/
theorem summary_spec (evs : List Event) (tn bn : String) :
    (((ensureParsed evs).filter (fun e => e.timestamp_ms ≠ ⊤) = []) →
      (get_summary (ensureParsed evs) tn bn).duration_ms = 0) ∧
    (∀ (ef el : Event) (qf ql : ℚ),
      ((ensureParsed evs).filter (fun e => e.timestamp_ms ≠ ⊤)).head? = some ef →
      ((ensureParsed evs).filter (fun e => e.timestamp_ms ≠ ⊤)).getLast? = some el →
      ef.timestamp_ms = (qf : ETime) → el.timestamp_ms = (ql : ETime) →
      (get_summary (ensureParsed evs) tn bn).duration_ms = ql - qf) ∧
    (∀ ty : String,
      (((get_summary (ensureParsed evs) tn bn).event_counts).lookup ty).getD 0 =
        ((ensureParsed evs).filter (fun e => decide (e.event_type = ty))).length) ∧
    ((get_summary (ensureParsed evs) tn bn).summary_has_errors = true ↔
      ∃ e ∈ ensureParsed evs, e.event_type = "error") ∧
    (∀ (entry : TEntry) (n : ℕ) (ev : Event), parse_error entry n = some ev →
      ev.timestamp_ms = ⊤ ∧ ev.event_type = "error") := by
  refine ⟨?_, ?_, ?_, ?_, parse_error_fields⟩
  · intro h
    show summaryDuration (ensureParsed evs) = 0
    by_cases hemp : (ensureParsed evs).isEmpty
    · rw [summaryDuration, if_pos hemp]
    · rw [summaryDuration, if_neg hemp]
      show (if hc : _ = ([] : List Event) then (0 : ℚ) else _) = 0
      rw [dif_pos h]
  · intro ef el qf ql hh hl hqf hql
    have hne : (ensureParsed evs).filter (fun e => e.timestamp_ms ≠ ⊤) ≠ [] := by
      intro hnil
      rw [hnil] at hh
      exact Option.noConfusion hh
    have hemp : ¬(ensureParsed evs).isEmpty = true := by
      rcases he : ensureParsed evs with _ | _
      · exact absurd (by rw [he]; rfl) hne
      · simp
    show summaryDuration (ensureParsed evs) = ql - qf
    rw [summaryDuration, if_neg hemp]
    show (if hc : _ = ([] : List Event) then (0 : ℚ) else _) = ql - qf
    rw [dif_neg hne]
    rw [List.head?_eq_head hne, Option.some.injEq] at hh
    rw [List.getLast?_eq_getLast _ hne, Option.some.injEq] at hl
    rw [hh, hl, hqf, hql]
    simp
  · intro ty
    show ((summaryEventCounts (ensureParsed evs)).lookup ty).getD 0 = _
    rw [summaryEventCounts, lookup_map_val]
    have hbt := foldl_addToGroup_lookup (ensureParsed evs) [] ty
    simp only [List.lookup_nil, Option.getD_none, List.nil_append] at hbt
    rw [← hbt, buildByType]
    rcases hcase : ((ensureParsed evs).foldl addToGroup []).lookup ty with _ | g
    · simp [hcase]
    · simp [hcase]
  · show has_errors (ensureParsed evs) = true ↔ _
    rw [has_errors, decide_eq_true_eq, by_type_eq_filter]
    constructor
    · intro h
      rcases List.exists_mem_of_length_pos h with ⟨e, he⟩
      rcases List.mem_filter.mp he with ⟨hmem, hty⟩
      exact ⟨e, hmem, by simpa using hty⟩
    · intro h
      obtain ⟨e, hmem, hty⟩ := h
      apply List.length_pos_of_mem
      exact List.mem_filter.mpr ⟨hmem, by simpa using hty⟩

theorem summary_spec_witness :
    (get_summary (ensureParsed []) "t" "b").duration_ms = 0 ∧
    (get_summary (ensureParsed [sampleConsoleEvent]) "t" "b").duration_ms = 5 - 5 ∧
    (∃ ev, parse_error { type := "error" } 0 = some ev ∧
      ev.timestamp_ms = ⊤ ∧ ev.event_type = "error") := by
  refine ⟨(summary_spec [] "t" "b").1 (by simp [ensureParsed, reindexFrom]), ?_, ?_⟩
  · refine (summary_spec [sampleConsoleEvent] "t" "b").2.1
      ({ sampleConsoleEvent with index := 0 }) ({ sampleConsoleEvent with index := 0 })
      5 5 ?_ ?_ rfl rfl
    · rw [ensureParsed_singleton]
      rfl
    · rw [ensureParsed_singleton]
      rfl
  · exact ⟨_, rfl, (summary_spec [] "t" "b").2.2.2.2 { type := "error" } 0 _ rfl⟩

/-! ## Context metadata defaults -/

/-- C10: a runtime stream with no `context-options` record makes the
metadata accessors fall back to defaults: the memoized context record is
the empty record, trace start monotonic time is `0.0`, wall-clock start is
`0`, and the test and browser names are empty. -/
theorem missing_context_options_defaults (browser_trace : List BTEntry)
    (h : ∀ e ∈ browser_trace, e.type ≠ "context-options") :
    getContextOptionsMemo browser_trace none = (emptyCtx, some emptyCtx) ∧
    get_context_options browser_trace = emptyCtx ∧
    get_trace_start_time browser_trace = 0 ∧
    get_wall_time browser_trace = 0 ∧
    get_test_name browser_trace = "" ∧
    get_browser_name browser_trace = "" := by
  have hf : browser_trace.find? (fun e => decide (e.type = "context-options")) = none := by
    rw [List.find?_eq_none]
    intro x hx
    simpa using h x hx
  have hctx : get_context_options browser_trace = emptyCtx := by
    rw [get_context_options, hf]
    rfl
  refine ⟨?_, hctx, ?_, ?_, ?_, ?_⟩
  · rw [getContextOptionsMemo, hf]
  · rw [get_trace_start_time, hctx]
    rfl
  · rw [get_wall_time, hctx]
    rfl
  · rw [get_test_name, hctx]
    rfl
  · rw [get_browser_name, hctx]
    rfl

theorem missing_context_options_defaults_witness :
    getContextOptionsMemo [{ type := "console" }] none = (emptyCtx, some emptyCtx) ∧
    get_context_options [{ type := "console" }] = emptyCtx ∧
    get_trace_start_time [{ type := "console" }] = 0 ∧
    get_wall_time [{ type := "console" }] = 0 ∧
    get_test_name [{ type := "console" }] = "" ∧
    get_browser_name [{ type := "console" }] = "" :=
  missing_context_options_defaults [{ type := "console" }] (by decide)

/-! ## Resource access (`get_resource` / `get_resource_text`) -/

/-- C5 counterexample: on an archive holding no resources, `get_resource`
propagates a raised `KeyError` — an exception, not a typed "not found"
return value. -/
theorem get_resource_raises_keyerror :
    get_resource [] "deadbeef" = Except.error (PyExn.keyError "resources/deadbeef") := by
  rfl

/-- C5 (amended): `get_resource` raises `KeyError` when the hash resolves
to no entry; `get_resource_text` alone is total, returning `none` when the
resource is missing or its bytes are not valid UTF-8. -/
theorem resource_access_missing (zf : ZipEntries) (s : String)
    (h1 : zf.lookup s = none) (h2 : zf.lookup ("resources/" ++ s) = none) :
    (∃ name, get_resource zf s = Except.error (PyExn.keyError name) ∧
      zf.lookup name = none) ∧
    get_resource_text zf s = none ∧
    (∀ (zf' : ZipEntries) (s' : String) (bs : ByteSeq),
      get_resource zf' s' = Except.ok bs → utf8Decode bs = none →
      get_resource_text zf' s' = none) := by
  have hres : ∃ name, get_resource zf s = Except.error (PyExn.keyError name) ∧
      zf.lookup name = none := by
    by_cases hs : pyStartsWith s "resources/"
    · exact ⟨s, by rw [get_resource, if_pos hs, zfRead, h1], h1⟩
    · exact ⟨"resources/" ++ s, by rw [get_resource, if_neg hs, zfRead, h2], h2⟩
  refine ⟨hres, ?_, ?_⟩
  · obtain ⟨name, hname, _⟩ := hres
    rw [get_resource_text, hname]
  · intro zf' s' bs hok hdec
    rw [get_resource_text, hok]
    show (match utf8Decode bs with
      | some text => some text
      | none => (none : Option String)) = none
    rw [hdec]

theorem resource_access_missing_witness :
    ((List.lookup "missing" ([] : ZipEntries) = none) ∧
      (List.lookup ("resources/" ++ "missing") ([] : ZipEntries) = none)) ∧
    ((∃ name, get_resource [] "missing" = Except.error (PyExn.keyError name) ∧
        List.lookup name ([] : ZipEntries) = none) ∧
      get_resource_text [] "missing" = none ∧
      (∀ (zf' : ZipEntries) (s' : String) (bs : ByteSeq),
        get_resource zf' s' = Except.ok bs → utf8Decode bs = none →
        get_resource_text zf' s' = none)) :=
  ⟨⟨rfl, rfl⟩, resource_access_missing [] "missing" rfl rfl⟩

/-! ## Correlation window lemmas -/

theorem lookup_correlateAppend (acc : List (String × List (Event × ℚ)))
    (hit : Event × ℚ) (ty : String) :
    (correlateAppend acc hit).lookup ty =
      (acc.lookup ty).map
        (fun es => if ty = hit.1.event_type then es ++ [hit] else es) := by
  induction acc with
  | nil => rfl
  | cons p rest ih =>
    obtain ⟨t₀, es₀⟩ := p
    show ((if t₀ = hit.1.event_type then (t₀, es₀ ++ [hit]) else (t₀, es₀)) ::
      correlateAppend rest hit).lookup ty = _
    by_cases h0 : t₀ = hit.1.event_type
    · rw [if_pos h0, lookup_cons_eq, lookup_cons_eq]
      by_cases h : ty = t₀
      · rw [if_pos h, if_pos h, Option.map_some', if_pos (h.trans h0)]
      · rw [if_neg h, if_neg h, ih]
    · rw [if_neg h0, lookup_cons_eq, lookup_cons_eq]
      by_cases h : ty = t₀
      · have h2 : ¬ty = hit.1.event_type := fun hc => h0 (h.symm.trans hc)
        rw [if_pos h, if_pos h, Option.map_some', if_neg h2]
      · rw [if_neg h, if_neg h, ih]

theorem foldl_correlateAppend_lookup (hits : List (Event × ℚ))
    (acc : List (String × List (Event × ℚ))) (ty : String) :
    (hits.foldl correlateAppend acc).lookup ty =
      (acc.lookup ty).map
        (fun es => es ++ hits.filter (fun h => decide (ty = h.1.event_type))) := by
  induction hits generalizing acc with
  | nil => cases hacc : acc.lookup ty <;> simp [hacc]
  | cons h hs ih =>
    rw [List.foldl_cons, ih, lookup_correlateAppend, List.filter_cons]
    cases hacc : acc.lookup ty with
    | none => simp
    | some es =>
      simp only [Option.map_some']
      by_cases hty : ty = h.1.event_type
      · rw [if_pos hty, if_pos (by simp [hty])]
        simp
      · rw [if_neg hty, if_neg (by simp only [decide_eq_true_eq]; exact hty)]

theorem correlate_lookup (idx : List Event) (t w : ℚ) (ty : String) :
    (correlate idx t w).lookup ty =
      (correlateInit.lookup ty).map (fun es =>
        (es ++ ((in_range idx (t - w) (t + w)).map
            (fun e => (e, distanceMs t e))).filter
          (fun h => decide (ty = h.1.event_type))).mergeSort distLE) := by
  simp only [correlate]
  rw [lookup_map_val
      (((in_range idx (t - w) (t + w)).map
        (fun e => (e, distanceMs t e))).foldl correlateAppend correlateInit)
      (fun es => es.mergeSort distLE) ty,
    foldl_correlateAppend_lookup, Option.map_map]
  rfl

theorem correlate_lookup_input_none (idx : List Event) (t w : ℚ) :
    (correlate idx t w).lookup "input" = none := by
  rw [correlate_lookup]
  rfl

theorem distLE_trans (a b c : Event × ℚ) (hab : distLE a b) (hbc : distLE b c) :
    distLE a c := by
  simp only [distLE, decide_eq_true_eq] at *
  exact le_trans hab hbc

theorem distLE_total (a b : Event × ℚ) : distLE a b || distLE b a := by
  simp only [distLE, Bool.or_eq_true, decide_eq_true_eq]
  exact le_total a.2 b.2

/-- C4 counterexample: an `input` event squarely inside the window is in
the index, but `correlate` has no `"input"` group at all — its result
dict is restricted to the six keys network, console, action, error,
screenshot, log. -/
theorem correlate_omits_input_type :
    sampleInputEvent ∈ ensureParsed [sampleInputEvent] ∧
    sampleInputEvent.event_type = "input" ∧
    (((0 : ℚ) - 500 : ℚ) : ETime) ≤ sampleInputEvent.timestamp_ms ∧
    sampleInputEvent.timestamp_ms ≤ (((0 : ℚ) + 500 : ℚ) : ETime) ∧
    (correlate (ensureParsed [sampleInputEvent]) 0 500).lookup "input" = none := by
  refine ⟨?_, rfl, ?_, ?_, correlate_lookup_input_none _ 0 500⟩
  · rw [ensureParsed_singleton]
    exact List.mem_singleton.mpr rfl
  · show (((0 : ℚ) - 500 : ℚ) : ETime) ≤ ((0 : ℚ) : ETime)
    rw [WithTop.coe_le_coe]
    norm_num
  · show ((0 : ℚ) : ETime) ≤ (((0 : ℚ) + 500 : ℚ) : ETime)
    rw [WithTop.coe_le_coe]
    norm_num

/-- C4 (amended): for every event type of the six-key result set —
`network, console, action, error, screenshot, log`; the `input` type is
omitted from `correlate`'s result — the group holds exactly the events of
that type inside the closed window, each annotated with its distance to
the center, and is sorted ascending by that distance. -/
theorem correlate_groups_spec (evs : List Event) (t w : ℚ) (ty : String)
    (hty : ty ∈ correlateTypes) :
    ∃ g, (correlate (ensureParsed evs) t w).lookup ty = some g ∧
      g.Pairwise (fun x y => x.2 ≤ y.2) ∧
      g.Perm (((ensureParsed evs).filter (fun e =>
        decide (e.event_type = ty ∧ (((t - w : ℚ)) : ETime) ≤ e.timestamp_ms ∧
          e.timestamp_ms ≤ (((t + w : ℚ)) : ETime)))).map
        (fun e => (e, distanceMs t e))) ∧
      (∀ x ∈ g, ∃ q : ℚ, x.1.timestamp_ms = (q : ETime) ∧ x.2 = |q - t| ∧
        |q - t| ≤ w) := by
  have hinit : correlateInit.lookup ty = some [] := by
    fin_cases hty <;> rfl
  have hlk := correlate_lookup (ensureParsed evs) t w ty
  rw [hinit] at hlk
  simp only [Option.map_some', List.nil_append] at hlk
  refine ⟨_, hlk, ?_, ?_, ?_⟩
  · exact (List.sorted_mergeSort distLE_trans distLE_total _).imp
      (fun h => by simpa [distLE] using h)
  · have heq : ((in_range (ensureParsed evs) (t - w) (t + w)).map
        (fun e => (e, distanceMs t e))).filter
          (fun h => decide (ty = h.1.event_type)) =
        ((ensureParsed evs).filter (fun e =>
          decide (e.event_type = ty ∧ (((t - w : ℚ)) : ETime) ≤ e.timestamp_ms ∧
            e.timestamp_ms ≤ (((t + w : ℚ)) : ETime)))).map
          (fun e => (e, distanceMs t e)) := by
      rw [List.filter_map, in_range_eq_filter _ (ensureParsed_ts_mono evs),
        List.filter_filter]
      congr 1
      apply List.filter_congr
      intro x _
      show (decide (ty = x.event_type) &&
          decide ((((t - w : ℚ)) : ETime) ≤ x.timestamp_ms ∧
            x.timestamp_ms ≤ (((t + w : ℚ)) : ETime))) = _
      rw [← Bool.decide_and, decide_eq_decide]
      constructor
      · rintro ⟨h1, h2⟩
        exact ⟨h1.symm, h2⟩
      · rintro ⟨h1, h2⟩
        exact ⟨h1.symm, h2⟩
    exact heq ▸ List.mergeSort_perm _ distLE
  · intro x hx
    rw [List.mem_mergeSort, List.mem_filter] at hx
    obtain ⟨hmem, _⟩ := hx
    rw [List.mem_map] at hmem
    obtain ⟨e, he, hann⟩ := hmem
    rw [in_range_eq_filter _ (ensureParsed_ts_mono evs), List.mem_filter] at he
    obtain ⟨-, hrange⟩ := he
    simp only [decide_eq_true_eq] at hrange
    obtain ⟨h1, h2⟩ := hrange
    have hne : e.timestamp_ms ≠ ⊤ := by
      intro htop
      rw [htop] at h2
      exact absurd h2 (WithTop.not_top_le_coe _)
    obtain ⟨q, hq⟩ := WithTop.ne_top_iff_exists.mp hne
    refine ⟨q, ?_, ?_, ?_⟩
    · rw [← hann]
      exact hq.symm
    · rw [← hann]
      show distanceMs t e = |q - t|
      rw [distanceMs, ← hq]
      simp
    · rw [← hq, WithTop.coe_le_coe] at h1 h2
      rw [abs_le]
      constructor <;> linarith

theorem correlate_groups_spec_witness :
    "console" ∈ correlateTypes ∧
    (∃ g, (correlate (ensureParsed []) 0 1).lookup "console" = some g ∧
      g.Pairwise (fun x y => x.2 ≤ y.2) ∧
      g.Perm (((ensureParsed []).filter (fun e =>
        decide (e.event_type = "console" ∧
          ((((0 : ℚ) - 1 : ℚ)) : ETime) ≤ e.timestamp_ms ∧
          e.timestamp_ms ≤ ((((0 : ℚ) + 1 : ℚ)) : ETime)))).map
        (fun e => (e, distanceMs 0 e))) ∧
      (∀ x ∈ g, ∃ q : ℚ, x.1.timestamp_ms = (q : ETime) ∧ x.2 = |q - 0| ∧
        |q - 0| ≤ 1)) :=
  ⟨by decide, correlate_groups_spec [] 0 1 "console" (by decide)⟩
